import Mathlib

/-!
Shallow embedding of the local-files-Q-A retrieval core, and proofs of the
spec's claims about it.

Sources embedded:
- `js/embeddings.js` (class `EmbeddingGenerator`): `tokenize`,
  `calculateTermFrequency`, `getWordPositions`, `generateTFIDFVector`,
  `normalizeVector`, `generateEmbedding`, `generateEmbeddingsBatch`,
  `buildVocabulary`, `cosineSimilarity`.
- `js/search.js` (class `VectorSearch`): `searchSimilarChunks` (its pure
  ranking core and the thin fallible wrapper), `hybridSearch`.
- `js/pdfProcessor.js` (class `PDFProcessor`): `chunkText`.

Modelling conventions:
- JavaScript numbers are modelled as real numbers (`ℝ`); Float32Array values
  likewise.  "Within floating tolerance" statements become exact statements
  over `ℝ`.
- JavaScript strings are modelled as Lean `String` / `List Char`; `charCodeAt`
  is `Char.toNat` (exact for BMP code points), `toLowerCase` is
  `Char.toLower` (exact on ASCII), the regex classes `\w` / `\s` are the
  ASCII word / whitespace characters.
- 32-bit integer coercion (the `& 0xffffffff` / `<<` semantics of JS, which
  produce SIGNED 32-bit values) is modelled by `toInt32` on `ℤ`.
- JS `Map` (insertion-ordered, last set wins, set of an existing key keeps
  its position) is modelled by association lists with `lookupKV` / `setKV`.
- Fallible code returns `Except String`; the per-item `try/catch` of
  `generateEmbeddingsBatch` becomes a `match` on that `Except`.
-/

noncomputable section

/-! ## Character and string helpers (embeddings.js `tokenize`, pdfProcessor.js) -/

/-- The JS regex class `\w` = `[A-Za-z0-9_]` (ASCII). -/
def isWordChar (c : Char) : Bool := c.isAlphanum || c == '_'

/-- One character of `.replace(/[^\w\s]/g, ' ')`: non-word, non-space
characters become a space. -/
def cleanChar (c : Char) : Char :=
  if isWordChar c || c.isWhitespace then c else ' '

/-- JS `toLowerCase()` producing the character list of the result. -/
def jsToLower (s : String) : List Char := s.toList.map Char.toLower

/-- Accumulator-based splitting of a character list into its maximal runs of
non-whitespace characters.  `cur` holds the current run, reversed. -/
def splitWsAcc : List Char → List Char → List (List Char)
  | cur, [] => if cur.isEmpty then [] else [cur.reverse]
  | cur, c :: cs =>
    if c.isWhitespace then
      (if cur.isEmpty then splitWsAcc [] cs else cur.reverse :: splitWsAcc [] cs)
    else splitWsAcc (c :: cur) cs

/-- JS `str.split(/\s+/).filter(w => w.length > 0)` (equivalently,
`split(/\s+/)` with the empty fragments removed): the maximal non-whitespace
runs of the input. -/
def splitWhitespace (l : List Char) : List (List Char) := splitWsAcc [] l

/-- embeddings.js `tokenize(text)`: lowercase, map non-word non-space
characters to spaces, split on whitespace, keep tokens with
`2 < length < 20`, keep the first 100. -/
def tokenize (text : String) : List String :=
  ((((splitWhitespace ((jsToLower text).map cleanChar)).filter
      (fun w => 2 < w.length && w.length < 20)).take 100).map List.asString)

/-! ## Association lists: the model of JS `Map` -/

/-- `Map.get`. -/
def lookupKV {β : Type} : List (String × β) → String → Option β
  | [], _ => none
  | e :: rest, k => if e.1 = k then some e.2 else lookupKV rest k

/-- `Map.set`: overwriting an existing key keeps its position, a new key is
appended (JS Map insertion order). -/
def setKV {β : Type} : List (String × β) → String → β → List (String × β)
  | [], k, v => [(k, v)]
  | e :: rest, k, v => if e.1 = k then (k, v) :: rest else e :: setKV rest k v

/-- The keys of an association list, in order. -/
def keysOf {β : Type} (l : List (String × β)) : List String := l.map Prod.fst

/-- `map.set(k, (map.get(k) || 0) + 1)`: the counting step used by
`calculateTermFrequency` and `buildVocabulary`. -/
def bumpKV (m : List (String × ℕ)) (k : String) : List (String × ℕ) :=
  setKV m k ((lookupKV m k).getD 0 + 1)

/-- Insertion step of first-occurrence deduplication (JS `Set` insertion). -/
def insertWord (acc : List String) (w : String) : List String :=
  if w ∈ acc then acc else acc ++ [w]

/-- `new Set(words)` iterated in insertion order: the distinct words in order
of first occurrence. -/
def dedupFirst (ws : List String) : List String := ws.foldl insertWord []

/-- The occurrence-count map of `calculateTermFrequency`'s first loop. -/
def countsOf (ws : List String) : List (String × ℕ) := ws.foldl bumpKV []

/-- embeddings.js `calculateTermFrequency(words)`: occurrence counts divided
by the total word count.  (For `words = []` both the source and this model
return the empty map.) -/
def calculateTermFrequency (ws : List String) : List (String × ℝ) :=
  (countsOf ws).map (fun e => (e.1, (e.2 : ℝ) / (ws.length : ℝ)))

/-! ## The hashing trick (embeddings.js `getWordPositions`) -/

/-- JS `ToInt32`: the signed 32-bit value congruent to `x` mod `2^32`.
This is what `& 0xffffffff` and `<<` actually produce in JavaScript. -/
def toInt32 (x : ℤ) : ℤ := (x + 2 ^ 31) % 2 ^ 32 - 2 ^ 31

/-- One step of the rolling hash:
`hash = ((hash << 5) - hash + word.charCodeAt(i)) & 0xffffffff`.
`hash << 5` wraps to Int32 first; the subtraction and addition are exact in
doubles at these magnitudes; `& 0xffffffff` is a final `ToInt32`. -/
def hashStep (h : ℤ) (c : Char) : ℤ :=
  toInt32 (toInt32 (h * 32) - h + (c.toNat : ℤ))

/-- The full rolling hash of a word (a signed 32-bit value). -/
def jsStringHash (w : String) : ℤ := w.toList.foldl hashStep 0

/-- embeddings.js `getWordPositions(word, count)`:
`Math.abs(hash + i * 123456789) % this.vectorSize` for `i < count`,
with `vectorSize = 384`. -/
def getWordPositions (word : String) (count : ℕ) : List ℕ :=
  (List.range count).map (fun i : ℕ => (jsStringHash word + (i : ℤ) * 123456789).natAbs % 384)

/-- Modelled from the spec's words (C2), for comparison with the source:
one step of `hash = (hash*31 + charCode) mod 2^32`. -/
def specHashStep (h : ℤ) (c : Char) : ℤ := (h * 31 + (c.toNat : ℤ)) % 2 ^ 32

/-- Modelled from the spec's words (C2): the unsigned rolling hash
`hash = (hash*31 + charCode) mod 2^32`, a value in `[0, 2^32)`. -/
def specRollingHash (w : String) : ℤ := w.toList.foldl specHashStep 0

/-- Modelled from the spec's words (C2): `position_i = (|hash| + i × 123456789) mod 384`
for `i < 3`, with the spec's unsigned hash. -/
def specPositions (w : String) : List ℕ :=
  (List.range 3).map (fun i => ((specRollingHash w).natAbs + i * 123456789) % 384)

/-! ## Vectors (embeddings.js `generateTFIDFVector`, `normalizeVector`) -/

/-- `vector.reduce((sum, val) => sum + val * val, 0)`. -/
def sumSq (v : List ℝ) : ℝ := v.foldl (fun s x => s + x * x) 0

/-- `new Float32Array(384)`: the zero vector of dimension 384. -/
def zeroVector : List ℝ := List.replicate 384 0

/-- embeddings.js `normalizeVector(vector)`: divide by the L2 magnitude,
returning the vector unchanged when the magnitude is 0. -/
def normalizeVector (v : List ℝ) : List ℝ :=
  if Real.sqrt (sumSq v) = 0 then v else v.map (fun x => x / Real.sqrt (sumSq v))

/-- `positions.forEach(pos => vector[pos] += score)`.  (A `List.set` at an
out-of-range index is a no-op, exactly like an out-of-range Float32Array
write; the positions used are always `< 384`.) -/
def addAtPositions (v : List ℝ) (ps : List ℕ) (score : ℝ) : List ℝ :=
  ps.foldl (fun w p => w.set p (w.getD p 0 + score)) v

/-- JS `x || 1` on the result of `idfScores.get(word)`: `1` when the key is
missing, and also `1` when the stored value is `0` (falsy). -/
def jsOr1 (o : Option ℝ) : ℝ :=
  match o with
  | some v => if v = 0 then 1 else v
  | none => 1

/-- embeddings.js `generateTFIDFVector(text)`: tokenize, compute term
frequencies, accumulate `tf * idf` at each word's 3 hashed positions into a
fresh zero vector of size 384, then normalize. -/
def generateTFIDFVector (idfScores : List (String × ℝ)) (text : String) : List ℝ :=
  normalizeVector
    ((calculateTermFrequency (tokenize text)).foldl
      (fun v e => addAtPositions v (getWordPositions e.1 3) (e.2 * jsOr1 (lookupKV idfScores e.1)))
      (List.replicate 384 0))

/-! ## The embedding generator state and batch API -/

/-- The mutable state of `EmbeddingGenerator`: `isInit` models
`this.isInitialized`, `idfScores` models `this.idfScores`
(`vectorSize` is the constant 384). -/
structure EmbeddingGenerator where
  isInit : Bool
  idfScores : List (String × ℝ)

/-- A stored chunk as the search and embedding modules see it: its text and
its embedding vector. -/
structure Chunk where
  text : String
  embedding : List ℝ

/-- embeddings.js `generateEmbedding(text)`: throws
"Embedding system not initialized" when not initialized, otherwise returns
the TF-IDF vector. -/
def generateEmbedding (g : EmbeddingGenerator) (text : String) : Except String (List ℝ) :=
  if g.isInit then Except.ok (generateTFIDFVector g.idfScores text)
  else Except.error ("Embedding system not initialized")

/-- The `documentFreq` map built by `buildVocabulary`: for each chunk, bump
once per distinct token of the chunk. -/
def documentFreq (chunks : List Chunk) : List (String × ℕ) :=
  chunks.foldl (fun m c => (dedupFirst (tokenize c.text)).foldl bumpKV m) []

/-- The claim's document-frequency expression for a term: the number of
chunks whose token list contains it at least once. -/
def dfCount (chunks : List Chunk) (w : String) : ℕ :=
  (chunks.filter (fun c => decide (w ∈ tokenize c.text))).length

/-- embeddings.js `buildVocabulary(chunks)`: computes document frequencies,
then sets `idf = Math.log(totalDocs / (freq + 1)) + 1` for each term into
`this.idfScores` (on top of whatever was there). -/
def buildVocabulary (g : EmbeddingGenerator) (chunks : List Chunk) : EmbeddingGenerator :=
  ⟨g.isInit,
   (documentFreq chunks).foldl
     (fun scores e => setKV scores e.1 (Real.log ((chunks.length : ℝ) / ((e.2 : ℝ) + 1)) + 1))
     g.idfScores⟩

/-- embeddings.js `generateEmbeddingsBatch(chunks)`: build the vocabulary,
then push one embedding per chunk, replacing a per-item failure by the zero
vector (`try { ... push(embedding) } catch { push(new Float32Array(384)) }`).
The progress callbacks and cooperative delays do not affect the result and
are not modelled. -/
def generateEmbeddingsBatch (g : EmbeddingGenerator) (chunks : List Chunk) : List (List ℝ) :=
  let g2 := buildVocabulary g chunks
  chunks.foldl
    (fun embeddings c =>
      embeddings ++ [match generateEmbedding g2 c.text with
        | Except.ok v => v
        | Except.error _ => List.replicate 384 0])
    []

/-! ## Similarity and search (embeddings.js `cosineSimilarity`, search.js) -/

/-- embeddings.js `cosineSimilarity(a, b)`: truncate both vectors to the
shorter length, accumulate the dot product and the two squared norms in one
loop, return 0 when either norm is 0, and clamp the result to `[0, 1]`. -/
def cosineSimilarity (a b : List ℝ) : ℝ :=
  let n := min a.length b.length
  let a2 := a.take n
  let b2 := b.take n
  let dotProduct := (List.zipWith (fun x y => x * y) a2 b2).sum
  let normA := sumSq a2
  let normB := sumSq b2
  if normA = 0 ∨ normB = 0 then 0
  else max 0 (min 1 (dotProduct / (Real.sqrt normA * Real.sqrt normB)))

/-- One scored candidate of `searchSimilarChunks` (the `documentName` /
`uploadDate` decoration read from the store is not modelled). -/
structure SearchResult where
  chunk : Chunk
  similarity : ℝ

/-- The pure ranking core of search.js `searchSimilarChunks` (steps 3-4):
score every candidate, keep those with similarity ≥ the threshold 0.3, sort
descending by similarity, truncate to `topK`. -/
def searchCore (queryEmbedding : List ℝ) (chunks : List Chunk) (topK : ℕ) : List SearchResult :=
  (((chunks.map (fun c => SearchResult.mk c (cosineSimilarity queryEmbedding c.embedding))).filter
      (fun r => decide ((0.3 : ℝ) ≤ r.similarity))).mergeSort
      (fun a b => decide (b.similarity ≤ a.similarity))).take topK

/-- search.js `searchSimilarChunks(queryText, ..., topK)`: throws when the
embedding generator is not initialized, otherwise embeds the query and ranks
the stored chunks.  (Fetching chunks from the store is replaced by the
`chunks` argument.) -/
def searchSimilarChunks (g : EmbeddingGenerator) (queryText : String) (chunks : List Chunk)
    (topK : ℕ) : Except String (List SearchResult) :=
  if g.isInit then (generateEmbedding g queryText).map (fun qv => searchCore qv chunks topK)
  else Except.error ("Embedding model not initialized. Please wait for model to load.")

/-- A result of `hybridSearch`: a vector-search result spread with its
`keywordScore` and `combinedScore`. -/
structure HybridResult where
  chunk : Chunk
  similarity : ℝ
  keywordScore : ℝ
  combinedScore : ℝ

/-- search.js `hybridSearch` keyword extraction:
`queryText.toLowerCase().split(/\s+/).filter(word => word.length > 2)` —
whitespace splitting only, punctuation retained, no upper length cap. -/
def keywordsOf (queryText : String) : List String :=
  ((splitWhitespace (jsToLower queryText)).filter (fun w => 2 < w.length)).map List.asString

/-- Fuel-indexed scan for `matchCount`: at each position, a match of the
pattern advances past it, otherwise advance one character.  The fuel
`text.length + 1` always suffices for a non-empty pattern. -/
def matchCountGo : ℕ → List Char → List Char → ℕ
  | 0, _, _ => 0
  | _, _, [] => 0
  | fuel + 1, pat, c :: cs =>
    if (c :: cs).take pat.length = pat then 1 + matchCountGo fuel pat ((c :: cs).drop pat.length)
    else matchCountGo fuel pat cs

/-- `(text.match(new RegExp(keyword, 'g')) || []).length`: the number of
non-overlapping, left-to-right occurrences.  This models the JS regex match
for keywords free of regex metacharacters (the keywords are matched as
literal text); an empty pattern matches once at every position. -/
def matchCount (pat text : List Char) : ℕ :=
  if pat.isEmpty then text.length + 1 else matchCountGo (text.length + 1) pat text

/-- The pure re-ranking core of search.js `hybridSearch`: decorate each
vector-search result with its keyword score and combined score, re-sort by
combined score, truncate to `topK`. -/
def hybridRank (queryText : String) (vresults : List SearchResult) (topK : ℕ) : List HybridResult :=
  let keywords := keywordsOf queryText
  ((vresults.map (fun r =>
      let lowText := jsToLower r.chunk.text
      let kwScore := keywords.foldl (fun s kw => s + ((matchCount kw.toList lowText : ℕ) : ℝ) * 0.1) 0
      HybridResult.mk r.chunk r.similarity kwScore (r.similarity + kwScore))).mergeSort
      (fun a b => decide (b.combinedScore ≤ a.combinedScore))).take topK

/-- search.js `hybridSearch(queryText, ..., topK)`: get `2 * topK` vector
results, then re-rank them by combined score. -/
def hybridSearch (g : EmbeddingGenerator) (queryText : String) (chunks : List Chunk)
    (topK : ℕ) : Except String (List HybridResult) :=
  (searchSimilarChunks g queryText chunks (topK * 2)).map (fun rs => hybridRank queryText rs topK)

/-- Modelled from the spec's words (claim C10), for comparison with the
source: "the number of times it occurs as a substring of the ... text" — the
number of positions at which the pattern occurs (occurrences may overlap). -/
def specSubstringCount (pat text : List Char) : ℕ :=
  ((List.range (text.length + 1)).filter (fun i => decide ((text.drop i).take pat.length = pat))).length

/-! ## The chunker (pdfProcessor.js `chunkText`) -/

/-- A chunk emitted by `chunkText`.  `startIndex` additionally records the
window start (the value of the loop variable when the chunk was emitted), so
that coverage of the input by the emitted windows can be stated; the source
stores the joined, trimmed text and the token count. -/
structure TextChunk where
  documentId : ℕ
  chunkIndex : ℕ
  startIndex : ℕ
  text : List Char
  tokenCount : ℕ

/-- JS `array.join(' ')`. -/
def joinSpace : List (List Char) → List Char
  | [] => []
  | [w] => w
  | w :: ws => w ++ ' ' :: joinSpace ws

/-- JS `str.trim()`: drop whitespace from both ends. -/
def jsTrim (l : List Char) : List Char :=
  ((l.dropWhile Char.isWhitespace).reverse.dropWhile Char.isWhitespace).reverse

/-- The `while (startIndex < words.length)` loop of pdfProcessor.js
`chunkText`: window `[startIndex, min(startIndex + maxChunkSize, length))`
(the source's `endIndex`), `chunkWords = words.slice(startIndex, endIndex)`,
emit the chunk when its trimmed joined text is non-empty, stop when the
window reaches the end (`endIndex >= words.length` breaks, written here as
appending the empty remainder), otherwise advance the start by
`max(startIndex + maxChunkSize - chunkOverlap, startIndex + 1)` — at least
one token per iteration, which is the termination measure of this
definition.  The source's local variables are inlined. -/
def chunkLoop (documentId maxChunkSize chunkOverlap : ℕ) (words : List (List Char))
    (startIndex chunkIndex : ℕ) : List TextChunk :=
  if startIndex < words.length then
    (if 0 < (jsTrim (joinSpace ((words.drop startIndex).take
        (min (startIndex + maxChunkSize) words.length - startIndex)))).length then
      [TextChunk.mk documentId chunkIndex startIndex
        (jsTrim (joinSpace ((words.drop startIndex).take
          (min (startIndex + maxChunkSize) words.length - startIndex))))
        ((words.drop startIndex).take
          (min (startIndex + maxChunkSize) words.length - startIndex)).length]
    else []) ++
    (if words.length ≤ min (startIndex + maxChunkSize) words.length then []
     else chunkLoop documentId maxChunkSize chunkOverlap words
        (max (startIndex + maxChunkSize - chunkOverlap) (startIndex + 1))
        (if 0 < (jsTrim (joinSpace ((words.drop startIndex).take
            (min (startIndex + maxChunkSize) words.length - startIndex)))).length
          then chunkIndex + 1 else chunkIndex))
  else []
termination_by words.length - startIndex
decreasing_by
  have h1 := Nat.le_max_right (startIndex + maxChunkSize - chunkOverlap) (startIndex + 1)
  omega

/-- pdfProcessor.js `chunkText(text, documentId)`: split the text on
whitespace into non-empty tokens, then run the chunking loop from position 0
with chunk index 0. -/
def chunkText (maxChunkSize chunkOverlap : ℕ) (text : List Char) (documentId : ℕ) : List TextChunk :=
  chunkLoop documentId maxChunkSize chunkOverlap (splitWhitespace text) 0 0

/-! ## Concrete instances used by claim witnesses and counterexamples -/

/-- A candidate whose cosine similarity with `qvBoundary` is exactly 0.29:
`29² + 9159 = 100²`. -/
def chunkLow : Chunk := Chunk.mk ("low") [29, Real.sqrt 9159]

/-- A candidate whose cosine similarity with `qvBoundary` is exactly 0.30:
`30² + 9100 = 100²`. -/
def chunkHigh : Chunk := Chunk.mk ("high") [30, Real.sqrt 9100]

/-- The query vector for the C3 threshold-boundary example. -/
def qvBoundary : List ℝ := [1, 0]

/-- First chunk of the C6 example corpus. -/
def catDogChunk : Chunk := Chunk.mk ("cat dog") []

/-- Second chunk of the C6 example corpus. -/
def dogBirdChunk : Chunk := Chunk.mk ("dog bird") []

/-- An initialized generator with an empty vocabulary (the state right after
`initialize()`). -/
def freshGen : EmbeddingGenerator := ⟨true, []⟩

/-- The encoder output for the query "cat" under the empty vocabulary. -/
def catVec : List ℝ := generateTFIDFVector [] ("cat")

/-- A stored chunk whose embedding is exactly the encoding of "cat". -/
def chunkCatW : Chunk := Chunk.mk ("cat") catVec

/-- A vector-search result fed to `hybridRank` in the C10 counterexample:
candidate text "aaaa". -/
def resAaaa : SearchResult := SearchResult.mk (Chunk.mk ("aaaa") []) (1 / 2)

/-- The keyword score `hybridRank` computes for query "cat" against the
chunk text "cat": one regex match, weighted 0.1. -/
def kwScoreCatW : ℝ := 0 + ((matchCount (("cat").toList) (jsToLower ("cat")) : ℕ) : ℝ) * 0.1

/-- The hybrid result produced for query "cat" over the single stored chunk
`chunkCatW` (similarity 1). -/
def resCatW : HybridResult := HybridResult.mk chunkCatW 1 kwScoreCatW (1 + kwScoreCatW)

/-- The keyword score the code computes for query "aaa" against candidate
text "aaaa": ONE non-overlapping regex match, weighted 0.1. -/
def kwScoreAaaa : ℝ := 0 + ((matchCount (("aaa").toList) (jsToLower ("aaaa")) : ℕ) : ℝ) * 0.1

/-- The hybrid result `hybridRank` produces for `resAaaa` under query "aaa". -/
def resAaaaRanked : HybridResult :=
  HybridResult.mk (Chunk.mk ("aaaa") []) (1 / 2) kwScoreAaaa (1 / 2 + kwScoreAaaa)

end

set_option maxRecDepth 4000
set_option maxHeartbeats 1000000

noncomputable section

/-! ## Generic fold and sum lemmas -/

theorem foldl_add_eq_sum {α : Type} (f : α → ℝ) (l : List α) : ∀ a : ℝ,
    l.foldl (fun s x => s + f x) a = a + (l.map f).sum := by
  induction l with
  | nil => intro a; simp
  | cons x l ih => intro a; simp only [List.foldl_cons, List.map_cons, List.sum_cons, ih]; ring

theorem sumSq_eq_sum (v : List ℝ) : sumSq v = (v.map (fun x => x * x)).sum := by
  simpa using foldl_add_eq_sum (fun x => x * x) v 0

theorem sumSq_nonneg (v : List ℝ) : 0 ≤ sumSq v := by
  rw [sumSq_eq_sum]
  refine List.sum_nonneg ?_
  intro x hx
  obtain ⟨y, _, rfl⟩ := List.mem_map.mp hx
  exact mul_self_nonneg y

theorem sq_le_sumSq {v : List ℝ} {x : ℝ} (hx : x ∈ v) : x * x ≤ sumSq v := by
  rw [sumSq_eq_sum]
  refine List.single_le_sum ?_ _ (List.mem_map_of_mem _ hx)
  intro y hy
  obtain ⟨z, _, rfl⟩ := List.mem_map.mp hy
  exact mul_self_nonneg z

theorem entries_eq_zero_of_sumSq_eq_zero {v : List ℝ} (h : sumSq v = 0) :
    ∀ x ∈ v, x = 0 := by
  intro x hx
  have h1 : x * x ≤ 0 := h ▸ sq_le_sumSq hx
  have h2 : 0 ≤ x * x := mul_self_nonneg x
  exact mul_self_eq_zero.mp (le_antisymm h1 h2)

theorem sumSq_map_div (v : List ℝ) (m : ℝ) :
    sumSq (v.map (fun x => x / m)) = sumSq v / (m * m) := by
  rw [sumSq_eq_sum, sumSq_eq_sum, List.map_map]
  have h : v.map ((fun x => x * x) ∘ fun x => x / m) = v.map (fun x => x * x * (m * m)⁻¹) := by
    refine List.map_congr_left ?_
    intro a _
    show a / m * (a / m) = a * a * (m * m)⁻¹
    rw [div_mul_div_comm, div_eq_mul_inv]
  rw [h, List.sum_map_mul_right, div_eq_mul_inv]

/-! ## Association-list (JS Map) lemmas -/

theorem lookupKV_setKV_self {β : Type} (l : List (String × β)) (k : String) (v : β) :
    lookupKV (setKV l k v) k = some v := by
  induction l with
  | nil => simp [setKV, lookupKV]
  | cons e rest ih =>
    by_cases h : e.1 = k
    · simp [setKV, h, lookupKV]
    · simp [setKV, h, lookupKV, ih]

theorem lookupKV_setKV_ne {β : Type} (l : List (String × β)) (k : String) (v : β)
    (j : String) (h : j ≠ k) : lookupKV (setKV l k v) j = lookupKV l j := by
  have hkj : ¬ (k = j) := fun hc => h hc.symm
  induction l with
  | nil => simp [setKV, lookupKV, hkj]
  | cons e rest ih =>
    by_cases he : e.1 = k
    · have h1 : setKV (e :: rest) k v = (k, v) :: rest := by simp [setKV, he]
      have hej : ¬ (e.1 = j) := by rw [he]; exact hkj
      rw [h1, lookupKV, lookupKV]
      simp [hkj, hej]
    · have h1 : setKV (e :: rest) k v = e :: setKV rest k v := by simp [setKV, he]
      rw [h1, lookupKV, lookupKV, ih]

theorem lookupKV_mem {β : Type} {l : List (String × β)} {k : String} {v : β}
    (h : lookupKV l k = some v) : (k, v) ∈ l := by
  induction l with
  | nil => simp [lookupKV] at h
  | cons e rest ih =>
    rw [lookupKV] at h
    by_cases he : e.1 = k
    · rw [if_pos he] at h
      have h2 : e = (k, v) := by
        obtain ⟨e1, e2⟩ := e
        simp only at he
        simp only [Option.some.injEq] at h
        simp [he, h]
      simp [h2]
    · rw [if_neg he] at h
      exact List.mem_cons_of_mem _ (ih h)

theorem mem_keysOf_setKV {β : Type} (l : List (String × β)) (k j : String) (v : β) :
    j ∈ keysOf (setKV l k v) ↔ j ∈ keysOf l ∨ j = k := by
  induction l with
  | nil => simp [setKV, keysOf, eq_comm]
  | cons e rest ih =>
    by_cases he : e.1 = k
    · have h1 : setKV (e :: rest) k v = (k, v) :: rest := by simp [setKV, he]
      rw [h1]
      simp only [keysOf, List.map_cons, List.mem_cons]
      rw [he]
      tauto
    · have h1 : setKV (e :: rest) k v = e :: setKV rest k v := by simp [setKV, he]
      rw [h1]
      simp only [keysOf, List.map_cons, List.mem_cons] at ih ⊢
      rw [ih]
      tauto

theorem nodup_keysOf_setKV {β : Type} {l : List (String × β)} (k : String) (v : β)
    (h : (keysOf l).Nodup) : (keysOf (setKV l k v)).Nodup := by
  induction l with
  | nil => simp [setKV, keysOf]
  | cons e rest ih =>
    simp only [keysOf, List.map_cons, List.nodup_cons] at h
    by_cases he : e.1 = k
    · have h1 : setKV (e :: rest) k v = (k, v) :: rest := by simp [setKV, he]
      rw [h1]
      simp only [keysOf, List.map_cons, List.nodup_cons]
      exact ⟨he ▸ h.1, h.2⟩
    · have h1 : setKV (e :: rest) k v = e :: setKV rest k v := by simp [setKV, he]
      rw [h1]
      simp only [keysOf, List.map_cons, List.nodup_cons]
      refine ⟨?_, ih h.2⟩
      intro hc
      rcases (mem_keysOf_setKV rest k e.1 v).mp hc with hm | hm
      · exact h.1 hm
      · exact he hm

theorem bumpFold_lookup (ws : List String) : ∀ (m : List (String × ℕ)) (w : String),
    lookupKV (ws.foldl bumpKV m) w =
      if w ∈ ws then some ((lookupKV m w).getD 0 + ws.count w) else lookupKV m w := by
  induction ws with
  | nil => intro m w; simp
  | cons x rest ih =>
    intro m w
    rw [List.foldl_cons, ih]
    by_cases hx : w = x
    · subst hx
      have h1 : lookupKV (bumpKV m w) w = some ((lookupKV m w).getD 0 + 1) :=
        lookupKV_setKV_self m w _
      by_cases hr : w ∈ rest
      · simp [hr, h1, List.count_cons, Nat.add_assoc, Nat.add_comm]
      · simp [hr, h1, List.count_cons, List.count_eq_zero_of_not_mem hr]
    · have h1 : lookupKV (bumpKV m x) w = lookupKV m w := lookupKV_setKV_ne m x _ w hx
      have hxw : ¬ (x = w) := fun hc => hx hc.symm
      by_cases hr : w ∈ rest
      · simp [hr, hx, h1, List.count_cons, hxw]
      · simp [hr, hx, h1, List.count_cons, hxw]

theorem countsOf_lookup (ws : List String) (w : String) :
    lookupKV (countsOf ws) w = if w ∈ ws then some (ws.count w) else none := by
  have h := bumpFold_lookup ws [] w
  simpa [countsOf, lookupKV] using h

theorem mem_keysOf_bumpFold (ws : List String) : ∀ (m : List (String × ℕ)) (j : String),
    j ∈ keysOf (ws.foldl bumpKV m) ↔ j ∈ keysOf m ∨ j ∈ ws := by
  induction ws with
  | nil => intro m j; simp
  | cons x rest ih =>
    intro m j
    rw [List.foldl_cons, ih]
    simp only [bumpKV]
    rw [mem_keysOf_setKV]
    simp only [List.mem_cons]
    tauto

theorem nodup_keysOf_bumpFold (ws : List String) : ∀ (m : List (String × ℕ)),
    (keysOf m).Nodup → (keysOf (ws.foldl bumpKV m)).Nodup := by
  induction ws with
  | nil => intro m h; simpa using h
  | cons x rest ih =>
    intro m h
    exact ih _ (nodup_keysOf_setKV x _ h)

theorem mem_key_of_mem {β : Type} {l : List (String × β)} {e : String × β} (h : e ∈ l) :
    e.1 ∈ keysOf l := List.mem_map_of_mem _ h

/-! ## Vector accumulation and normalization lemmas -/

theorem getD_set_self {v : List ℝ} {p : ℕ} (h : p < v.length) (x : ℝ) :
    (v.set p x).getD p 0 = x := by
  rw [List.getD_eq_getElem _ _ (by simpa using h)]
  exact List.getElem_set_self _

theorem getD_set_ne {v : List ℝ} {p j : ℕ} (h : p ≠ j) (x : ℝ) :
    (v.set p x).getD j 0 = v.getD j 0 := by
  by_cases hj : j < v.length
  · rw [List.getD_eq_getElem _ _ (by simpa using hj), List.getD_eq_getElem _ _ hj]
    exact List.getElem_set_ne h _
  · rw [List.getD_eq_default _ _ (by simp; omega), List.getD_eq_default _ _ (by omega)]

theorem length_addAtPositions (ps : List ℕ) : ∀ (v : List ℝ) (s : ℝ),
    (addAtPositions v ps s).length = v.length := by
  induction ps with
  | nil => intro v s; rfl
  | cons p rest ih =>
    intro v s
    show (addAtPositions (v.set p (v.getD p 0 + s)) rest s).length = v.length
    rw [ih, List.length_set]

theorem getD_addAtPositions (ps : List ℕ) : ∀ (v : List ℝ) (s : ℝ) (j : ℕ),
    (∀ p ∈ ps, p < v.length) → j < v.length →
    (addAtPositions v ps s).getD j 0 = v.getD j 0 + (ps.count j : ℝ) * s := by
  induction ps with
  | nil => intro v s j _ _; simp [addAtPositions]
  | cons p rest ih =>
    intro v s j hps hj
    have hstep : addAtPositions v (p :: rest) s
        = addAtPositions (v.set p (v.getD p 0 + s)) rest s := rfl
    rw [hstep, ih _ s j (fun q hq => by rw [List.length_set]; exact hps q (List.mem_cons_of_mem _ hq))
      (by rw [List.length_set]; exact hj)]
    rw [List.count_cons]
    by_cases hpj : p = j
    · rw [hpj, getD_set_self hj]
      simp only [beq_self_eq_true, if_pos]
      push_cast
      ring
    · rw [getD_set_ne hpj]
      have : (p == j) = false := beq_false_of_ne hpj
      simp [this]

theorem positions_lt_384 (w : String) (n : ℕ) : ∀ p ∈ getWordPositions w n, p < 384 := by
  intro p hp
  obtain ⟨i, _, rfl⟩ := List.mem_map.mp hp
  exact Nat.mod_lt _ (by norm_num)

/-- The accumulation step of `generateTFIDFVector`, as a function. -/
theorem length_tfidf_fold (idf : List (String × ℝ)) (pairs : List (String × ℝ)) :
    ∀ base : List ℝ,
    (pairs.foldl (fun v e => addAtPositions v (getWordPositions e.1 3)
        (e.2 * jsOr1 (lookupKV idf e.1))) base).length = base.length := by
  induction pairs with
  | nil => intro base; rfl
  | cons e rest ih =>
    intro base
    rw [List.foldl_cons, ih, length_addAtPositions]

theorem getD_tfidf_fold (idf : List (String × ℝ)) (pairs : List (String × ℝ)) :
    ∀ (base : List ℝ), base.length = 384 → ∀ j, j < 384 →
    (pairs.foldl (fun v e => addAtPositions v (getWordPositions e.1 3)
        (e.2 * jsOr1 (lookupKV idf e.1))) base).getD j 0
      = base.getD j 0
        + (pairs.map (fun e => ((getWordPositions e.1 3).count j : ℝ)
            * (e.2 * jsOr1 (lookupKV idf e.1)))).sum := by
  induction pairs with
  | nil => intro base _ j _; simp
  | cons e rest ih =>
    intro base hlen j hj
    rw [List.foldl_cons,
      ih _ (by rw [length_addAtPositions]; exact hlen) j hj,
      getD_addAtPositions _ _ _ _ (fun p hp => hlen ▸ positions_lt_384 e.1 3 p hp) (hlen ▸ hj)]
    simp only [List.map_cons, List.sum_cons]
    ring

theorem getD_replicate_zero {j n : ℕ} (h : j < n) : (List.replicate n (0 : ℝ)).getD j 0 = 0 := by
  rw [List.getD_eq_getElem _ _ (by simpa using h)]
  exact List.getElem_replicate _ _

theorem sumSq_zeroVector : sumSq zeroVector = 0 := by
  rw [zeroVector, sumSq_eq_sum, List.map_replicate]
  simp

theorem length_normalizeVector (v : List ℝ) : (normalizeVector v).length = v.length := by
  rw [normalizeVector]
  by_cases h : Real.sqrt (sumSq v) = 0
  · rw [if_pos h]
  · rw [if_neg h, List.length_map]

theorem normalizeVector_unit {v : List ℝ} (h : Real.sqrt (sumSq v) ≠ 0) :
    Real.sqrt (sumSq (normalizeVector v)) = 1 := by
  have hs0 : 0 ≤ sumSq v := sumSq_nonneg v
  have hsne : sumSq v ≠ 0 := by
    intro hc
    exact h (by rw [hc, Real.sqrt_zero])
  rw [normalizeVector, if_neg h, sumSq_map_div, Real.mul_self_sqrt hs0, div_self hsne,
    Real.sqrt_one]

theorem normalizeVector_zero {v : List ℝ} (hlen : v.length = 384)
    (h : Real.sqrt (sumSq v) = 0) : normalizeVector v = zeroVector := by
  rw [normalizeVector, if_pos h]
  have hs : sumSq v = 0 :=
    le_antisymm (Real.sqrt_eq_zero'.mp h) (sumSq_nonneg v)
  calc v = List.replicate v.length 0 := List.eq_replicate_of_mem (entries_eq_zero_of_sumSq_eq_zero hs)
    _ = zeroVector := by rw [hlen, zeroVector]

/-! ## The three structural facts about `generateTFIDFVector` -/

theorem tfidf_zero_or_unit (idf : List (String × ℝ)) (text : String) :
    generateTFIDFVector idf text = zeroVector
    ∨ Real.sqrt (sumSq (generateTFIDFVector idf text)) = 1 := by
  rw [generateTFIDFVector]
  by_cases h : Real.sqrt (sumSq ((calculateTermFrequency (tokenize text)).foldl
      (fun v e => addAtPositions v (getWordPositions e.1 3)
        (e.2 * jsOr1 (lookupKV idf e.1))) (List.replicate 384 0))) = 0
  · left
    exact normalizeVector_zero (by rw [length_tfidf_fold]; simp) h
  · right
    exact normalizeVector_unit h

theorem tfidf_empty_tokens (idf : List (String × ℝ)) (text : String)
    (h : tokenize text = []) : generateTFIDFVector idf text = zeroVector := by
  rw [generateTFIDFVector, h]
  show normalizeVector (List.replicate 384 0) = zeroVector
  refine normalizeVector_zero (by simp) ?_
  rw [show List.replicate 384 (0 : ℝ) = zeroVector from rfl, sumSq_zeroVector, Real.sqrt_zero]

theorem tfidf_unrecognized_ne_zero (idf : List (String × ℝ)) (text : String)
    (hnone : ∀ w ∈ tokenize text, lookupKV idf w = none)
    (hne : tokenize text ≠ []) : generateTFIDFVector idf text ≠ zeroVector := by
  obtain ⟨w0, rest, hws⟩ := List.exists_cons_of_ne_nil hne
  -- the head token has a positive term frequency
  have hw0 : w0 ∈ tokenize text := by rw [hws]; exact List.mem_cons_self _ _
  have hcount : 1 ≤ (tokenize text).count w0 := List.one_le_count_iff.mpr hw0
  have hlenpos : 0 < (tokenize text).length := by rw [hws]; simp
  have htf0 : (0 : ℝ) < ((tokenize text).count w0 : ℝ) / ((tokenize text).length : ℝ) := by
    apply div_pos
    · exact_mod_cast Nat.lt_of_lt_of_le Nat.zero_lt_one hcount
    · exact_mod_cast hlenpos
  -- its entry in the term-frequency map
  have hmemcounts : (w0, (tokenize text).count w0) ∈ countsOf (tokenize text) :=
    lookupKV_mem (by rw [countsOf_lookup, if_pos hw0])
  have hmemtf : (w0, ((tokenize text).count w0 : ℝ) / ((tokenize text).length : ℝ))
      ∈ calculateTermFrequency (tokenize text) :=
    List.mem_map_of_mem _ hmemcounts
  -- the head position of the head token
  set p0 := (jsStringHash w0).natAbs % 384 with hp0def
  have hp0lt : p0 < 384 := Nat.mod_lt _ (by norm_num)
  have hp0mem : p0 ∈ getWordPositions w0 3 := by
    rw [getWordPositions, hp0def]
    refine List.mem_map.mpr ⟨0, ?_, ?_⟩
    · decide
    · norm_num
  -- every key of the term-frequency map is a token, hence unrecognized: idf defaults to 1
  have hkeys : ∀ e ∈ calculateTermFrequency (tokenize text), jsOr1 (lookupKV idf e.1) = 1 := by
    intro e he
    obtain ⟨e0, he0, rfl⟩ := List.mem_map.mp he
    have hk : e0.1 ∈ keysOf (countsOf (tokenize text)) := mem_key_of_mem he0
    have hk2 : e0.1 ∈ tokenize text := by
      rcases (mem_keysOf_bumpFold (tokenize text) [] e0.1).mp hk with h1 | h1
      · simp [keysOf] at h1
      · exact h1
    show jsOr1 (lookupKV idf e0.1) = 1
    rw [hnone _ hk2]
    rfl
  -- every term-frequency value is nonnegative
  have hvals : ∀ e ∈ calculateTermFrequency (tokenize text), (0 : ℝ) ≤ e.2 := by
    intro e he
    obtain ⟨e0, _, rfl⟩ := List.mem_map.mp he
    show (0 : ℝ) ≤ (e0.2 : ℝ) / ((tokenize text).length : ℝ)
    positivity
  set pairs := calculateTermFrequency (tokenize text) with hpairs
  set acc := pairs.foldl (fun v e => addAtPositions v (getWordPositions e.1 3)
      (e.2 * jsOr1 (lookupKV idf e.1))) (List.replicate 384 0) with hacc
  have hacclen : acc.length = 384 := by rw [hacc, length_tfidf_fold]; simp
  have haccget : acc.getD p0 0
      = (pairs.map (fun e => ((getWordPositions e.1 3).count p0 : ℝ)
          * (e.2 * jsOr1 (lookupKV idf e.1)))).sum := by
    rw [hacc, getD_tfidf_fold idf pairs _ (by simp) p0 hp0lt, getD_replicate_zero hp0lt, zero_add]
  -- all contributions are nonnegative
  have hterms_nonneg : ∀ x ∈ pairs.map (fun e => ((getWordPositions e.1 3).count p0 : ℝ)
      * (e.2 * jsOr1 (lookupKV idf e.1))), 0 ≤ x := by
    intro x hx
    obtain ⟨e, he, rfl⟩ := List.mem_map.mp hx
    rw [hkeys e he, mul_one]
    exact mul_nonneg (by positivity) (hvals e he)
  -- the head token's contribution is at least its term frequency
  have hpc : 1 ≤ ((getWordPositions w0 3).count p0 : ℝ) := by
    exact_mod_cast List.one_le_count_iff.mpr hp0mem
  have hjs0 : jsOr1 (lookupKV idf w0) = 1 := by rw [hnone _ hw0]; rfl
  have htermmem := List.mem_map_of_mem (fun e : String × ℝ => ((getWordPositions e.1 3).count p0 : ℝ)
      * (e.2 * jsOr1 (lookupKV idf e.1))) hmemtf
  have h9 := List.single_le_sum hterms_nonneg _ htermmem
  have h10 : ((tokenize text).count w0 : ℝ) / ((tokenize text).length : ℝ)
      ≤ (pairs.map (fun e => ((getWordPositions e.1 3).count p0 : ℝ)
          * (e.2 * jsOr1 (lookupKV idf e.1)))).sum := by
    refine le_trans ?_ h9
    simp only [hjs0, mul_one]
    exact le_mul_of_one_le_left htf0.le hpc
  have haccpos : 0 < acc.getD p0 0 := by
    rw [haccget]
    exact lt_of_lt_of_le htf0 h10
  -- hence the accumulated vector has positive magnitude
  have hmem : acc.getD p0 0 ∈ acc := by
    rw [List.getD_eq_getElem _ _ (hacclen ▸ hp0lt)]
    exact List.getElem_mem _
  have hsumsq : 0 < sumSq acc :=
    lt_of_lt_of_le (mul_pos haccpos haccpos) (sq_le_sumSq hmem)
  have hmag : 0 < Real.sqrt (sumSq acc) := Real.sqrt_pos.mpr hsumsq
  -- and the normalized entry at p0 is positive, so the output is not the zero vector
  intro hzero
  rw [generateTFIDFVector, ← hpairs, ← hacc, normalizeVector, if_neg (ne_of_gt hmag)] at hzero
  have hmapget : (acc.map (fun x => x / Real.sqrt (sumSq acc))).getD p0 0
      = acc.getD p0 0 / Real.sqrt (sumSq acc) := by
    rw [List.getD_eq_getElem _ _ (by rw [List.length_map, hacclen]; exact hp0lt),
      List.getElem_map, List.getD_eq_getElem _ _ (hacclen ▸ hp0lt)]
  rw [hzero] at hmapget
  rw [show zeroVector.getD p0 0 = 0 from getD_replicate_zero hp0lt] at hmapget
  exact absurd hmapget.symm (ne_of_gt (div_pos haccpos hmag))

/-! ## Hash lemmas (C2) -/

theorem toInt32_bounds (x : ℤ) : -(2 ^ 31) ≤ toInt32 x ∧ toInt32 x < 2 ^ 31 := by
  unfold toInt32
  omega

theorem hashStep_spec (h : ℤ) (c : Char) :
    hashStep (toInt32 h) c = toInt32 (specHashStep h c) := by
  unfold hashStep specHashStep toInt32
  omega

theorem foldl_hashStep_spec (l : List Char) : ∀ s : ℤ,
    l.foldl hashStep (toInt32 s) = toInt32 (l.foldl specHashStep s) := by
  induction l with
  | nil => intro s; rfl
  | cons c cs ih =>
    intro s
    rw [List.foldl_cons, List.foldl_cons, hashStep_spec, ih]

theorem jsStringHash_eq_toInt32 (w : String) :
    jsStringHash w = toInt32 (specRollingHash w) := by
  rw [jsStringHash, specRollingHash,
    show (0 : ℤ) = toInt32 0 from by unfold toInt32; decide]
  rw [foldl_hashStep_spec]
  rw [show toInt32 0 = 0 from by unfold toInt32; decide]

theorem specRollingHash_bounds (w : String) :
    0 ≤ specRollingHash w ∧ specRollingHash w < 2 ^ 32 := by
  rw [specRollingHash]
  have h : ∀ (l : List Char) (s : ℤ), 0 ≤ s → s < 2 ^ 32 →
      0 ≤ l.foldl specHashStep s ∧ l.foldl specHashStep s < 2 ^ 32 := by
    intro l
    induction l with
    | nil => intro s h1 h2; exact ⟨h1, h2⟩
    | cons c cs ih =>
      intro s h1 h2
      rw [List.foldl_cons]
      refine ih _ ?_ ?_
      · unfold specHashStep; omega
      · unfold specHashStep; omega
  exact h _ 0 (by norm_num) (by norm_num)

/-! ## Cosine-similarity lemmas (C8) -/

theorem cosineSimilarity_comm (a b : List ℝ) : cosineSimilarity a b = cosineSimilarity b a := by
  simp only [cosineSimilarity]
  rw [Nat.min_comm b.length a.length]
  set n := min a.length b.length with hn
  rw [show List.zipWith (fun x y => x * y) (b.take n) (a.take n)
      = List.zipWith (fun x y => x * y) (a.take n) (b.take n) from
    List.zipWith_comm_of_comm _ mul_comm _ _]
  set sA := sumSq (a.take n) with hsA
  set sB := sumSq (b.take n) with hsB
  by_cases h : sA = 0 ∨ sB = 0
  · rw [if_pos h, if_pos h.symm]
  · rw [if_neg h, if_neg (fun hc => h hc.symm), mul_comm (Real.sqrt sB)]

theorem zipWith_mul_self (v : List ℝ) :
    List.zipWith (fun x y => x * y) v v = v.map (fun x => x * x) := by
  induction v with
  | nil => rfl
  | cons x rest ih => simp [List.zipWith_cons_cons, ih]

theorem cosineSimilarity_self {v : List ℝ} (h : ∃ x ∈ v, x ≠ 0) :
    cosineSimilarity v v = 1 := by
  obtain ⟨x, hxv, hx⟩ := h
  have hs : 0 < sumSq v :=
    lt_of_lt_of_le (mul_self_pos.mpr hx) (sq_le_sumSq hxv)
  simp only [cosineSimilarity]
  rw [Nat.min_self, List.take_length, zipWith_mul_self, ← sumSq_eq_sum]
  rw [if_neg (by push_neg; exact ⟨ne_of_gt hs, ne_of_gt hs⟩)]
  rw [Real.mul_self_sqrt hs.le, div_self (ne_of_gt hs)]
  norm_num

/-! ## Search-ranking lemmas (C3) -/

theorem searchCore_length_le (qv : List ℝ) (chunks : List Chunk) (topK : ℕ) :
    (searchCore qv chunks topK).length ≤ topK := by
  simp only [searchCore]
  rw [List.length_take]
  exact min_le_left _ _

theorem searchCore_threshold (qv : List ℝ) (chunks : List Chunk) (topK : ℕ) :
    ∀ r ∈ searchCore qv chunks topK, (0.3 : ℝ) ≤ r.similarity := by
  intro r hr
  simp only [searchCore] at hr
  have h1 := List.mem_of_mem_take hr
  have h2 := (List.mergeSort_perm _ _).mem_iff.mp h1
  simp only [List.mem_filter, decide_eq_true_eq] at h2
  exact h2.2

theorem searchCore_sorted (qv : List ℝ) (chunks : List Chunk) (topK : ℕ) :
    (searchCore qv chunks topK).Pairwise (fun a b => b.similarity ≤ a.similarity) := by
  simp only [searchCore]
  refine List.Pairwise.sublist (List.take_sublist _ _) ?_
  refine List.Pairwise.imp (fun hab => of_decide_eq_true hab) ?_
  refine List.sorted_mergeSort ?_ ?_ _
  · intro a b c hab hbc
    exact decide_eq_true (le_trans (of_decide_eq_true hbc) (of_decide_eq_true hab))
  · intro a b
    simp only [Bool.or_eq_true, decide_eq_true_eq]
    exact le_total _ _

/-! ## Batch-embedding lemmas (C5, C9) -/

theorem batch_foldl_eq_map (g2 : EmbeddingGenerator) (l : List Chunk) : ∀ init : List (List ℝ),
    l.foldl (fun embeddings c => embeddings ++ [match generateEmbedding g2 c.text with
      | Except.ok v => v
      | Except.error _ => List.replicate 384 0]) init
    = init ++ l.map (fun c => match generateEmbedding g2 c.text with
      | Except.ok v => v
      | Except.error _ => List.replicate 384 0) := by
  induction l with
  | nil => intro init; rw [List.foldl_nil, List.map_nil, List.append_nil]
  | cons c rest ih =>
    intro init
    rw [List.foldl_cons, List.map_cons, ih, List.append_assoc, List.singleton_append]

theorem generateEmbeddingsBatch_eq_map (g : EmbeddingGenerator) (chunks : List Chunk) :
    generateEmbeddingsBatch g chunks
      = chunks.map (fun c =>
          match generateEmbedding (buildVocabulary g chunks) c.text with
          | Except.ok v => v
          | Except.error _ => List.replicate 384 0) := by
  simp only [generateEmbeddingsBatch]
  rw [batch_foldl_eq_map (buildVocabulary g chunks) chunks []]
  rw [List.nil_append]

theorem buildVocabulary_isInit (g : EmbeddingGenerator) (chunks : List Chunk) :
    (buildVocabulary g chunks).isInit = g.isInit := rfl

theorem generateEmbedding_error {g : EmbeddingGenerator} (h : g.isInit = false)
    (text : String) : generateEmbedding g text
      = Except.error ("Embedding system not initialized") := by
  rw [generateEmbedding, h]
  rfl

/-! ## Vocabulary-builder lemmas (C6) -/

theorem mem_insertFold (l : List String) : ∀ (acc : List String) (w : String),
    w ∈ l.foldl insertWord acc ↔ w ∈ acc ∨ w ∈ l := by
  induction l with
  | nil => intro acc w; simp
  | cons x rest ih =>
    intro acc w
    rw [List.foldl_cons, ih]
    have h1 : w ∈ insertWord acc x ↔ w ∈ acc ∨ w = x := by
      rw [insertWord]
      by_cases hx : x ∈ acc
      · rw [if_pos hx]
        constructor
        · exact Or.inl
        · rintro (h | rfl)
          · exact h
          · exact hx
      · rw [if_neg hx]
        simp
    rw [h1]
    simp only [List.mem_cons]
    tauto

theorem mem_dedupFirst (ws : List String) (w : String) :
    w ∈ dedupFirst ws ↔ w ∈ ws := by
  rw [dedupFirst, mem_insertFold]
  simp

theorem nodup_insertFold (l : List String) : ∀ acc : List String,
    acc.Nodup → (l.foldl insertWord acc).Nodup := by
  induction l with
  | nil => intro acc h; simpa using h
  | cons x rest ih =>
    intro acc h
    rw [List.foldl_cons]
    refine ih _ ?_
    rw [insertWord]
    by_cases hx : x ∈ acc
    · rwa [if_pos hx]
    · rw [if_neg hx]
      refine List.Nodup.append h (List.nodup_singleton x) ?_
      intro a ha hax
      rw [List.mem_singleton] at hax
      exact hx (hax ▸ ha)

theorem nodup_dedupFirst (ws : List String) : (dedupFirst ws).Nodup :=
  nodup_insertFold ws [] List.nodup_nil

theorem dfCount_cons (c : Chunk) (rest : List Chunk) (w : String) :
    dfCount (c :: rest) w
      = (if w ∈ tokenize c.text then 1 else 0) + dfCount rest w := by
  rw [dfCount, dfCount, List.filter_cons]
  by_cases h : w ∈ tokenize c.text
  · rw [if_pos (decide_eq_true h), if_pos h, List.length_cons]
    omega
  · rw [if_neg (by simpa using h), if_neg h]
    omega

theorem docFreq_fold_lookup (chunks : List Chunk) : ∀ (m : List (String × ℕ)) (w : String),
    lookupKV (chunks.foldl (fun m c => (dedupFirst (tokenize c.text)).foldl bumpKV m) m) w
      = if 0 < dfCount chunks w
          then some ((lookupKV m w).getD 0 + dfCount chunks w)
          else lookupKV m w := by
  induction chunks with
  | nil => intro m w; simp [dfCount]
  | cons c rest ih =>
    intro m w
    rw [List.foldl_cons, ih]
    have hstep := bumpFold_lookup (dedupFirst (tokenize c.text)) m w
    rw [dfCount_cons]
    by_cases hc : w ∈ tokenize c.text
    · have hmem : w ∈ dedupFirst (tokenize c.text) := (mem_dedupFirst _ _).mpr hc
      have hcount : (dedupFirst (tokenize c.text)).count w = 1 :=
        List.count_eq_one_of_mem (nodup_dedupFirst _) hmem
      rw [if_pos hmem, hcount] at hstep
      rw [hstep, if_pos hc]
      by_cases hr : 0 < dfCount rest w
      · rw [if_pos hr, if_pos (by omega)]
        simp only [Option.getD_some]
        congr 1
        omega
      · rw [if_neg hr, if_pos (by omega)]
        congr 1
        omega
    · have hmem : w ∉ dedupFirst (tokenize c.text) := fun h => hc ((mem_dedupFirst _ _).mp h)
      rw [if_neg hmem] at hstep
      rw [hstep, if_neg hc]
      by_cases hr : 0 < dfCount rest w
      · rw [if_pos hr, if_pos (by omega)]
        congr 1
        omega
      · rw [if_neg hr, if_neg (by omega)]

theorem documentFreq_lookup (chunks : List Chunk) (w : String) :
    lookupKV (documentFreq chunks) w
      = if 0 < dfCount chunks w then some (dfCount chunks w) else none := by
  rw [documentFreq, docFreq_fold_lookup]
  by_cases h : 0 < dfCount chunks w
  · rw [if_pos h, if_pos h]
    simp [lookupKV]
  · rw [if_neg h, if_neg h]
    rfl

theorem nodup_keysOf_documentFreq (chunks : List Chunk) :
    (keysOf (documentFreq chunks)).Nodup := by
  rw [documentFreq]
  have h : ∀ (l : List Chunk) (m : List (String × ℕ)), (keysOf m).Nodup →
      (keysOf (l.foldl (fun m c => (dedupFirst (tokenize c.text)).foldl bumpKV m) m)).Nodup := by
    intro l
    induction l with
    | nil => intro m hm; exact hm
    | cons c rest ih =>
      intro m hm
      rw [List.foldl_cons]
      exact ih _ (nodup_keysOf_bumpFold _ _ hm)
  exact h chunks [] (by simp [keysOf])

theorem setKVFold_lookup_notmem {β : Type} (f : String × ℕ → β) (entries : List (String × ℕ)) :
    ∀ (base : List (String × β)) (w : String), w ∉ keysOf entries →
      lookupKV (entries.foldl (fun s e => setKV s e.1 (f e)) base) w = lookupKV base w := by
  induction entries with
  | nil => intro base w _; rfl
  | cons e rest ih =>
    intro base w hw
    simp only [keysOf, List.map_cons, List.mem_cons] at hw
    push_neg at hw
    rw [List.foldl_cons, ih _ w (by simpa [keysOf] using hw.2)]
    exact lookupKV_setKV_ne base e.1 (f e) w hw.1

theorem setKVFold_lookup_mem {β : Type} (f : String × ℕ → β) (entries : List (String × ℕ)) :
    ∀ (base : List (String × β)) (w : String) (d : ℕ),
      (keysOf entries).Nodup → (w, d) ∈ entries →
      lookupKV (entries.foldl (fun s e => setKV s e.1 (f e)) base) w = some (f (w, d)) := by
  induction entries with
  | nil => intro base w d _ hmem; cases hmem
  | cons e rest ih =>
    intro base w d hnd hmem
    simp only [keysOf, List.map_cons, List.nodup_cons] at hnd
    rw [List.foldl_cons]
    rcases List.mem_cons.mp hmem with heq | hrest
    · have hw : w = e.1 := by rw [← heq]
      rw [setKVFold_lookup_notmem f rest _ w (by rw [hw]; exact hnd.1)]
      rw [hw, ← heq, lookupKV_setKV_self]
    · exact ih _ w d hnd.2 hrest

theorem buildVocabulary_lookup (g : EmbeddingGenerator) (chunks : List Chunk)
    (w : String) (h : 0 < dfCount chunks w) :
    lookupKV (buildVocabulary g chunks).idfScores w
      = some (Real.log ((chunks.length : ℝ) / ((dfCount chunks w : ℝ) + 1)) + 1) := by
  have hmem : (w, dfCount chunks w) ∈ documentFreq chunks :=
    lookupKV_mem (by rw [documentFreq_lookup, if_pos h])
  have h1 := setKVFold_lookup_mem
    (fun e => Real.log ((chunks.length : ℝ) / ((e.2 : ℝ) + 1)) + 1)
    (documentFreq chunks) g.idfScores w (dfCount chunks w)
    (nodup_keysOf_documentFreq chunks) hmem
  rw [buildVocabulary]
  simpa using h1

theorem idf_pos {n d : ℕ} (hn : 0 < n) (hd : d ≤ n) :
    0 < Real.log ((n : ℝ) / ((d : ℝ) + 1)) + 1 := by
  have hn1 : (1 : ℝ) ≤ (n : ℝ) := by exact_mod_cast hn
  have hdn : (d : ℝ) ≤ (n : ℝ) := by exact_mod_cast hd
  have hhalf : (1 : ℝ) / 2 ≤ (n : ℝ) / ((d : ℝ) + 1) := by
    rw [div_le_div_iff (by norm_num) (by positivity)]
    nlinarith
  have hlog : Real.log (1 / 2) ≤ Real.log ((n : ℝ) / ((d : ℝ) + 1)) :=
    Real.log_le_log (by norm_num) hhalf
  have h2 : Real.log (1 / 2) = -Real.log 2 := by
    rw [one_div, Real.log_inv]
  have h3 : Real.log 2 < 1 := lt_trans Real.log_two_lt_d9 (by norm_num)
  linarith

theorem dfCount_le_length (chunks : List Chunk) (w : String) :
    dfCount chunks w ≤ chunks.length := by
  rw [dfCount]
  exact List.length_filter_le _ _

/-! ## Hybrid-ranking lemmas (C7, C10) -/

theorem hybridRank_props (q : String) (vs : List SearchResult) (k : ℕ) :
    ∀ r ∈ hybridRank q vs k,
      r.combinedScore = r.similarity + r.keywordScore
      ∧ r.keywordScore = ((keywordsOf q).map
          (fun kw => ((matchCount kw.toList (jsToLower r.chunk.text) : ℕ) : ℝ) * 0.1)).sum
      ∧ r.similarity ≤ r.combinedScore := by
  intro r hr
  simp only [hybridRank] at hr
  have h1 := List.mem_of_mem_take hr
  have h2 := (List.mergeSort_perm _ _).mem_iff.mp h1
  obtain ⟨v, hv, rfl⟩ := List.mem_map.mp h2
  have hsum : (keywordsOf q).foldl
      (fun s kw => s + ((matchCount kw.toList (jsToLower v.chunk.text) : ℕ) : ℝ) * 0.1) 0
      = ((keywordsOf q).map
          (fun kw => ((matchCount kw.toList (jsToLower v.chunk.text) : ℕ) : ℝ) * 0.1)).sum := by
    have hg := foldl_add_eq_sum
      (fun kw => ((matchCount kw.toList (jsToLower v.chunk.text) : ℕ) : ℝ) * 0.1) (keywordsOf q) 0
    simpa using hg
  have hnn : 0 ≤ (keywordsOf q).foldl
      (fun s kw => s + ((matchCount kw.toList (jsToLower v.chunk.text) : ℕ) : ℝ) * 0.1) 0 := by
    rw [hsum]
    refine List.sum_nonneg ?_
    intro x hx
    obtain ⟨kw, _, rfl⟩ := List.mem_map.mp hx
    positivity
  refine ⟨rfl, hsum, ?_⟩
  show v.similarity ≤ v.similarity + _
  linarith

/-! ## Chunker lemmas (C4) -/

theorem splitWsAcc_wf : ∀ (l cur : List Char), (∀ c ∈ cur, c.isWhitespace = false) →
    ∀ w ∈ splitWsAcc cur l, w ≠ [] ∧ ∀ c ∈ w, c.isWhitespace = false := by
  intro l
  induction l with
  | nil =>
    intro cur hcur w hw
    rw [splitWsAcc] at hw
    by_cases hc : cur.isEmpty
    · rw [if_pos hc] at hw
      cases hw
    · rw [if_neg hc] at hw
      rw [List.mem_singleton] at hw
      subst hw
      refine ⟨?_, ?_⟩
      · simp only [ne_eq, List.reverse_eq_nil_iff]
        intro hnil
        rw [hnil] at hc
        exact hc rfl
      · intro c hcm
        exact hcur c (List.mem_reverse.mp hcm)
  | cons c cs ih =>
    intro cur hcur w hw
    rw [splitWsAcc] at hw
    by_cases hws : c.isWhitespace
    · rw [if_pos hws] at hw
      by_cases hc : cur.isEmpty
      · rw [if_pos hc] at hw
        exact ih [] (by simp) w hw
      · rw [if_neg hc] at hw
        rcases List.mem_cons.mp hw with rfl | hrest
        · refine ⟨?_, ?_⟩
          · simp only [ne_eq, List.reverse_eq_nil_iff]
            intro hnil
            rw [hnil] at hc
            exact hc rfl
          · intro a ham
            exact hcur a (List.mem_reverse.mp ham)
        · exact ih [] (by simp) w hrest
    · rw [if_neg hws] at hw
      refine ih (c :: cur) ?_ w hw
      intro a ham
      rcases List.mem_cons.mp ham with rfl | ha
      · exact Bool.not_eq_true _ ▸ (by simpa using hws)
      · exact hcur a ha

theorem splitWhitespace_wf (l : List Char) :
    ∀ w ∈ splitWhitespace l, w ≠ [] ∧ ∀ c ∈ w, c.isWhitespace = false :=
  splitWsAcc_wf l [] (by simp)

theorem jsTrim_length_pos {l : List Char} {c : Char} (hc : c ∈ l)
    (hcw : c.isWhitespace = false) : 0 < (jsTrim l).length := by
  rw [List.length_pos]
  intro hnil
  rw [jsTrim, List.reverse_eq_nil_iff, List.dropWhile_eq_nil_iff] at hnil
  have h2 : ∀ x ∈ l.dropWhile Char.isWhitespace, x.isWhitespace = true := by
    intro x hx
    exact hnil x (List.mem_reverse.mpr hx)
  have h3 : ∀ x ∈ l, x.isWhitespace = true := by
    intro x hx
    rw [← List.takeWhile_append_dropWhile Char.isWhitespace l] at hx
    rcases List.mem_append.mp hx with h | h
    · exact List.mem_takeWhile_imp h
    · exact h2 x h
  rw [h3 c hc] at hcw
  exact Bool.noConfusion hcw

theorem mem_joinSpace : ∀ (ws : List (List Char)) (w : List Char), w ∈ ws →
    ∀ c ∈ w, c ∈ joinSpace ws := by
  intro ws
  induction ws with
  | nil => intro w hw; cases hw
  | cons w0 rest ih =>
    intro w hw c hc
    rcases List.mem_cons.mp hw with rfl | hrest
    · cases rest with
      | nil => simpa [joinSpace] using hc
      | cons w1 r2 =>
        show c ∈ w ++ ' ' :: joinSpace (w1 :: r2)
        exact List.mem_append_left _ hc
    · cases rest with
      | nil => cases hrest
      | cons w1 r2 =>
        show c ∈ w0 ++ ' ' :: joinSpace (w1 :: r2)
        refine List.mem_append_right _ ?_
        exact List.mem_cons_of_mem _ (ih w hrest c hc)

theorem joined_trim_pos {ws2 : List (List Char)} (hne : ws2 ≠ [])
    (hwf : ∀ w ∈ ws2, w ≠ [] ∧ ∀ c ∈ w, c.isWhitespace = false) :
    0 < (jsTrim (joinSpace ws2)).length := by
  obtain ⟨w0, rest, rfl⟩ := List.exists_cons_of_ne_nil hne
  obtain ⟨hw0ne, hw0chars⟩ := hwf w0 (List.mem_cons_self _ _)
  obtain ⟨c0, cr, rfl⟩ := List.exists_cons_of_ne_nil hw0ne
  exact jsTrim_length_pos
    (mem_joinSpace _ _ (List.mem_cons_self _ _) c0 (List.mem_cons_self _ _))
    (hw0chars c0 (List.mem_cons_self _ _))

theorem chunkLoop_main (d m o : ℕ) (hm : 1 ≤ m) (ws : List (List Char))
    (hwf : ∀ w ∈ ws, w ≠ [] ∧ ∀ c ∈ w, c.isWhitespace = false) :
    ∀ (n s ci : ℕ), ws.length - s ≤ n →
      ((chunkLoop d m o ws s ci).map TextChunk.chunkIndex
          = List.range' ci (chunkLoop d m o ws s ci).length)
      ∧ (chunkLoop d m o ws s ci).length ≤ ws.length - s
      ∧ (∀ i, s ≤ i → i < ws.length →
          ∃ c ∈ chunkLoop d m o ws s ci, c.startIndex ≤ i ∧ i < c.startIndex + c.tokenCount) := by
  intro n
  induction n with
  | zero =>
    intro s ci h
    have hs : ¬ s < ws.length := by omega
    rw [chunkLoop, if_neg hs]
    refine ⟨by simp, by simp, ?_⟩
    intro i hsi hil
    omega
  | succ n ihn =>
    intro s ci h
    by_cases hs : s < ws.length
    · have hcw_wf : ∀ w ∈ (ws.drop s).take (min (s + m) ws.length - s),
          w ≠ [] ∧ ∀ c ∈ w, c.isWhitespace = false :=
        fun w hw => hwf w (List.mem_of_mem_drop (List.mem_of_mem_take hw))
      have hcl : ((ws.drop s).take (min (s + m) ws.length - s)).length
          = min (min (s + m) ws.length - s) (ws.length - s) := by
        rw [List.length_take, List.length_drop]
      have hclpos : 0 < ((ws.drop s).take (min (s + m) ws.length - s)).length := by
        rw [hcl]
        omega
      have hcwne : (ws.drop s).take (min (s + m) ws.length - s) ≠ [] :=
        List.length_pos.mp hclpos
      have hemit := joined_trim_pos hcwne hcw_wf
      rw [chunkLoop, if_pos hs, if_pos hemit, if_pos hemit]
      by_cases hb : ws.length ≤ min (s + m) ws.length
      · rw [if_pos hb, List.append_nil]
        refine ⟨by simp [List.range'_succ], by simp; omega, ?_⟩
        intro i hsi hil
        refine ⟨_, List.mem_singleton_self _, ?_, ?_⟩
        · exact hsi
        · show i < s + ((ws.drop s).take (min (s + m) ws.length - s)).length
          rw [hcl]
          omega
      · rw [if_neg hb]
        push_neg at hb
        have hmax := Nat.le_max_right (s + m - o) (s + 1)
        have hnle : ws.length - max (s + m - o) (s + 1) ≤ n := by omega
        obtain ⟨ih1, ih2, ih3⟩ := ihn (max (s + m - o) (s + 1)) (ci + 1) hnle
        refine ⟨?_, ?_, ?_⟩
        · rw [List.singleton_append, List.map_cons, ih1, List.length_cons, List.range'_succ]
        · rw [List.singleton_append, List.length_cons]
          omega
        · intro i hsi hil
          by_cases hie : i < min (s + m) ws.length
          · refine ⟨_, List.mem_append_left _ (List.mem_singleton_self _), hsi, ?_⟩
            show i < s + ((ws.drop s).take (min (s + m) ws.length - s)).length
            rw [hcl]
            omega
          · have hle : max (s + m - o) (s + 1) ≤ i := by
              have h1 : min (s + m) ws.length = s + m := by omega
              have h2 : max (s + m - o) (s + 1) ≤ s + m := by
                refine Nat.max_le.mpr ⟨?_, ?_⟩ <;> omega
              omega
            obtain ⟨c, hc, hspan⟩ := ih3 i hle hil
            exact ⟨c, List.mem_append_right _ hc, hspan⟩
    · rw [chunkLoop, if_neg hs]
      refine ⟨by simp, by simp, ?_⟩
      intro i hsi hil
      omega

/-! ## Concrete evaluations for the threshold-boundary example (C3) -/

theorem sqrt_ten_thousand : Real.sqrt (10000 : ℝ) = 100 := by
  rw [show (10000 : ℝ) = 100 ^ 2 by norm_num]
  exact Real.sqrt_sq (by norm_num)

theorem cosSim_boundary_low : cosineSimilarity qvBoundary chunkLow.embedding = 0.29 := by
  have h1 : Real.sqrt 9159 * Real.sqrt 9159 = 9159 := Real.mul_self_sqrt (by norm_num)
  simp only [cosineSimilarity, qvBoundary, chunkLow, sumSq, List.foldl, List.zipWith,
    List.length_cons, List.length_nil, List.take, List.sum_cons, List.sum_nil]
  norm_num [h1, sqrt_ten_thousand]

theorem cosSim_boundary_high : cosineSimilarity qvBoundary chunkHigh.embedding = 0.3 := by
  have h1 : Real.sqrt 9100 * Real.sqrt 9100 = 9100 := Real.mul_self_sqrt (by norm_num)
  simp only [cosineSimilarity, qvBoundary, chunkHigh, sumSq, List.foldl, List.zipWith,
    List.length_cons, List.length_nil, List.take, List.sum_cons, List.sum_nil]
  norm_num [h1, sqrt_ten_thousand]

theorem searchCore_boundary :
    searchCore qvBoundary [chunkLow, chunkHigh] 5 = [SearchResult.mk chunkHigh 0.3] := by
  simp only [searchCore, List.map_cons, List.map_nil, cosSim_boundary_low, cosSim_boundary_high]
  rw [List.filter_cons, List.filter_cons, List.filter_nil]
  rw [if_neg (by simp only [decide_eq_true_eq]; norm_num),
    if_pos (by simp only [decide_eq_true_eq]; norm_num)]
  simp

/-! ## Concrete evaluations for the "cat" query (C7, C10 witnesses) -/

theorem length_generateTFIDFVector (idf : List (String × ℝ)) (text : String) :
    (generateTFIDFVector idf text).length = 384 := by
  rw [generateTFIDFVector, length_normalizeVector, length_tfidf_fold]
  simp

theorem exists_ne_zero_of_ne_zeroVector {l : List ℝ} (hlen : l.length = 384)
    (h : l ≠ zeroVector) : ∃ x ∈ l, x ≠ 0 := by
  by_contra hc
  push_neg at hc
  refine h ?_
  calc l = List.replicate l.length 0 := List.eq_replicate_of_mem hc
    _ = zeroVector := by rw [hlen, zeroVector]

theorem catVec_ne_zero : catVec ≠ zeroVector :=
  tfidf_unrecognized_ne_zero [] ("cat") (fun w _ => rfl) (by decide)

theorem cosSim_catVec_self : cosineSimilarity catVec catVec = 1 :=
  cosineSimilarity_self
    (exists_ne_zero_of_ne_zeroVector (length_generateTFIDFVector [] ("cat")) catVec_ne_zero)

theorem searchCore_catW : searchCore catVec [chunkCatW] 10 = [SearchResult.mk chunkCatW 1] := by
  simp only [searchCore, List.map_cons, List.map_nil]
  rw [show chunkCatW.embedding = catVec from rfl, cosSim_catVec_self]
  rw [List.filter_cons, List.filter_nil,
    if_pos (by simp only [decide_eq_true_eq]; norm_num)]
  simp

theorem searchSimilar_catW :
    searchSimilarChunks freshGen ("cat") [chunkCatW] 10 = Except.ok [SearchResult.mk chunkCatW 1] := by
  rw [searchSimilarChunks, if_pos (show freshGen.isInit = true from rfl)]
  rw [show generateEmbedding freshGen ("cat") = Except.ok catVec from rfl]
  rw [show Except.map (fun qv => searchCore qv [chunkCatW] 10) (Except.ok catVec)
      = Except.ok (searchCore catVec [chunkCatW] 10) from rfl]
  rw [searchCore_catW]

theorem hybridRank_catW :
    hybridRank ("cat") [SearchResult.mk chunkCatW 1] 5 = [resCatW] := by
  have hkw : keywordsOf ("cat") = [("cat")] := by decide
  simp only [hybridRank, hkw, List.map_cons, List.map_nil, List.foldl_cons, List.foldl_nil]
  rw [show chunkCatW.text = ("cat") from rfl]
  rw [show (0 + ((matchCount (("cat").toList) (jsToLower ("cat")) : ℕ) : ℝ) * 0.1)
      = kwScoreCatW from rfl]
  rw [show HybridResult.mk chunkCatW 1 kwScoreCatW (1 + kwScoreCatW) = resCatW from rfl]
  rw [show List.mergeSort [resCatW] (fun a b => decide (b.combinedScore ≤ a.combinedScore))
      = [resCatW] from by simp]
  rfl

theorem hybridSearch_catW :
    hybridSearch freshGen ("cat") [chunkCatW] 5 = Except.ok [resCatW] := by
  rw [hybridSearch, show (5 * 2 : ℕ) = 10 from rfl, searchSimilar_catW]
  rw [show Except.map (fun rs => hybridRank ("cat") rs 5)
      (Except.ok [SearchResult.mk chunkCatW 1])
      = Except.ok (hybridRank ("cat") [SearchResult.mk chunkCatW 1] 5) from rfl]
  rw [hybridRank_catW]

theorem hybridRank_aaaa :
    hybridRank ("aaa") [resAaaa] 5 = [resAaaaRanked] := by
  have hkw : keywordsOf ("aaa") = [("aaa")] := by decide
  simp only [hybridRank, hkw, List.map_cons, List.map_nil, List.foldl_cons, List.foldl_nil]
  rw [show resAaaa.chunk.text = ("aaaa") from rfl]
  rw [show (0 + ((matchCount (("aaa").toList) (jsToLower ("aaaa")) : ℕ) : ℝ) * 0.1)
      = kwScoreAaaa from rfl]
  rw [show resAaaa.chunk = Chunk.mk ("aaaa") [] from rfl]
  rw [show resAaaa.similarity = (1 / 2 : ℝ) from rfl]
  rw [show HybridResult.mk (Chunk.mk ("aaaa") []) (1 / 2) kwScoreAaaa (1 / 2 + kwScoreAaaa)
      = resAaaaRanked from rfl]
  rw [show List.mergeSort [resAaaaRanked] (fun a b => decide (b.combinedScore ≤ a.combinedScore))
      = [resAaaaRanked] from by simp]
  rfl

/-! ## The general vocabulary fact (C6) -/

theorem vocab_idf_general :
    ∀ (g : EmbeddingGenerator) (chunks : List Chunk) (w : String),
      (∃ c ∈ chunks, w ∈ tokenize c.text) →
      lookupKV (buildVocabulary g chunks).idfScores w
        = some (Real.log ((chunks.length : ℝ) / ((dfCount chunks w : ℝ) + 1)) + 1)
      ∧ dfCount chunks w ≤ chunks.length
      ∧ 0 < Real.log ((chunks.length : ℝ) / ((dfCount chunks w : ℝ) + 1)) + 1 := by
  intro g chunks w hex
  obtain ⟨c, hc, hwc⟩ := hex
  have hdf : 0 < dfCount chunks w := by
    rw [dfCount, List.length_pos]
    exact List.ne_nil_of_mem (List.mem_filter.mpr ⟨hc, decide_eq_true hwc⟩)
  have hlen : 0 < chunks.length := List.length_pos.mpr (List.ne_nil_of_mem hc)
  exact ⟨buildVocabulary_lookup g chunks w hdf, dfCount_le_length chunks w,
    idf_pos hlen (dfCount_le_length chunks w)⟩

/-! ## The claims -/

/-- C1 (amended): every output of `generateTFIDFVector` is either the exact
zero vector or has L2 norm exactly 1; the zero vector arises when the input
tokenizes to no valid terms; but an input all of whose tokens are ABSENT
from the vocabulary yields a NON-zero unit vector (unseen terms default to
idf 1), not the zero vector as the claim stated. -/
theorem c1_encode_norm_amended :
    ∀ (idf : List (String × ℝ)) (text : String),
      (generateTFIDFVector idf text = zeroVector
        ∨ Real.sqrt (sumSq (generateTFIDFVector idf text)) = 1)
      ∧ (tokenize text = [] → generateTFIDFVector idf text = zeroVector)
      ∧ ((∀ w ∈ tokenize text, lookupKV idf w = none) → tokenize text ≠ [] →
          generateTFIDFVector idf text ≠ zeroVector) :=
  fun idf text =>
    ⟨tfidf_zero_or_unit idf text, tfidf_empty_tokens idf text,
      tfidf_unrecognized_ne_zero idf text⟩

/-- C1 witness: "dog" is not in the empty vocabulary, yet its encoding is a
non-zero (unit) vector. -/
theorem c1_encode_norm_witness :
    generateTFIDFVector [] ("dog") ≠ zeroVector :=
  (c1_encode_norm_amended [] ("dog")).2.2 (fun _ _ => rfl) (by decide)

/-- C1 counterexample: the text "cat", all of whose tokens are absent from
the (empty) VocabularyModel, does NOT encode to the zero vector — refuting
"for any input text all of whose tokens are absent ... encode returns the
exact zero vector". -/
theorem c1_all_unrecognized_counterexample :
    generateTFIDFVector [] ("cat") ≠ zeroVector :=
  tfidf_unrecognized_ne_zero [] ("cat") (fun _ _ => rfl) (by decide)

/-- C2 (amended): the rolling hash the code computes is the SIGNED 32-bit
residue (`toInt32`) of the claim's `hash = (hash*31 + charCode) mod 2^32`,
a value in `[-2^31, 2^31)`; position `i` is `|hash + i*123456789| mod 384`
with the absolute value applied AFTER the addition.  The claim's formula
`(|hash| + i*123456789) mod 384` over the unsigned hash agrees with the
code exactly when the unsigned hash is below `2^31`. -/
theorem c2_hash_positions_amended :
    ∀ w : String,
      jsStringHash w = toInt32 (specRollingHash w)
      ∧ (-(2 ^ 31) ≤ jsStringHash w ∧ jsStringHash w < 2 ^ 31)
      ∧ getWordPositions w 3
          = (List.range 3).map (fun i : ℕ => (jsStringHash w + (i : ℤ) * 123456789).natAbs % 384)
      ∧ (specRollingHash w < 2 ^ 31 → getWordPositions w 3 = specPositions w) := by
  intro w
  refine ⟨jsStringHash_eq_toInt32 w, ?_, rfl, ?_⟩
  · rw [jsStringHash_eq_toInt32]
    exact toInt32_bounds _
  · intro hlt
    have hnn := (specRollingHash_bounds w).1
    have heq : jsStringHash w = specRollingHash w := by
      rw [jsStringHash_eq_toInt32]
      unfold toInt32
      omega
    rw [getWordPositions, specPositions]
    refine List.map_congr_left ?_
    intro i _
    rw [heq]
    omega

/-- C2 witness: for "cat" the unsigned hash is below `2^31`, and the code's
positions agree with the claim's formula. -/
theorem c2_hash_positions_witness :
    getWordPositions ("cat") 3 = specPositions ("cat") :=
  (c2_hash_positions_amended ("cat")).2.2.2 (by decide)

/-- C2 counterexample: for the term "example" the 32-bit hash is negative
(unsigned residue ≥ 2^31), and the code's positions [150, 129, 108] differ
from the claim's [106, 127, 148]. -/
theorem c2_hash_positions_counterexample :
    getWordPositions ("example") 3 ≠ specPositions ("example") := by decide

/-- C3: `search`'s ranking core returns at most `topK` results, every
returned result has similarity ≥ the 0.3 threshold, results are sorted
non-increasing by similarity; and on the boundary example a candidate with
similarity exactly 0.29 is excluded while one with exactly 0.30 is the
single returned result. -/
theorem c3_search_topk_threshold_sorted :
    (∀ (qv : List ℝ) (chunks : List Chunk) (topK : ℕ),
        (searchCore qv chunks topK).length ≤ topK
        ∧ (∀ r ∈ searchCore qv chunks topK, (0.3 : ℝ) ≤ r.similarity)
        ∧ (searchCore qv chunks topK).Pairwise (fun a b => b.similarity ≤ a.similarity))
    ∧ cosineSimilarity qvBoundary chunkLow.embedding = 0.29
    ∧ cosineSimilarity qvBoundary chunkHigh.embedding = 0.3
    ∧ searchCore qvBoundary [chunkLow, chunkHigh] 5 = [SearchResult.mk chunkHigh 0.3] :=
  ⟨fun qv chunks topK =>
    ⟨searchCore_length_le qv chunks topK, searchCore_threshold qv chunks topK,
      searchCore_sorted qv chunks topK⟩,
    cosSim_boundary_low, cosSim_boundary_high, searchCore_boundary⟩

/-- C3 witness: the 0.30-similarity candidate is in the results, so the
threshold bound applies to it. -/
theorem c3_search_witness :
    (0.3 : ℝ) ≤ (SearchResult.mk chunkHigh 0.3).similarity :=
  (c3_search_topk_threshold_sorted.1 qvBoundary [chunkLow, chunkHigh] 5).2.1
    (SearchResult.mk chunkHigh 0.3)
    (by rw [c3_search_topk_threshold_sorted.2.2.2]; exact List.mem_singleton_self _)

/-- C4: for every finite token sequence (from whitespace-splitting any text)
and every overlap ≥ 0 — including overlap ≥ maxChunkSize — the chunker
terminates (it is a total function whose output has at most one chunk per
input token), the emitted chunks' token spans cover the entire input token
sequence, and the emitted chunkIndex values are exactly 0, 1, 2, ... . -/
theorem c4_chunker_terminates_covers :
    ∀ (maxCS overlap : ℕ) (text : List Char) (d : ℕ), 1 ≤ maxCS →
      ((chunkText maxCS overlap text d).map TextChunk.chunkIndex
          = List.range (chunkText maxCS overlap text d).length)
      ∧ (chunkText maxCS overlap text d).length ≤ (splitWhitespace text).length
      ∧ (∀ i, i < (splitWhitespace text).length →
          ∃ c ∈ chunkText maxCS overlap text d,
            c.startIndex ≤ i ∧ i < c.startIndex + c.tokenCount) := by
  intro m o text d hm
  obtain ⟨h1, h2, h3⟩ := chunkLoop_main d m o hm (splitWhitespace text)
    (splitWhitespace_wf text) (splitWhitespace text).length 0 0 (by omega)
  rw [chunkText]
  refine ⟨?_, by simpa using h2, ?_⟩
  · rw [h1, List.range_eq_range']
  · intro i hi
    exact h3 i (Nat.zero_le i) hi

/-- C4 witness: a three-token text chunked with maxChunkSize 1 and
overlap 5 (overlap ≥ maxChunkSize) still yields at most one chunk per
token. -/
theorem c4_chunker_witness :
    (chunkText 1 5 (("a b c").toList) 0).length
      ≤ (splitWhitespace (("a b c").toList)).length :=
  (c4_chunker_terminates_covers 1 5 (("a b c").toList) 0 (by norm_num)).2.1

/-- C5: `generateEmbeddingsBatch` returns exactly one vector per input
chunk, in input order: it equals the map that encodes each chunk's text
against the batch vocabulary and substitutes the zero vector of dimension
384 for a per-item failure.  The function is total (never throws): the only
fallible step, `generateEmbedding`, sits inside the per-item `match`
(try/catch). -/
theorem c5_encode_batch_order_preserving :
    ∀ (g : EmbeddingGenerator) (chunks : List Chunk),
      (generateEmbeddingsBatch g chunks).length = chunks.length
      ∧ generateEmbeddingsBatch g chunks
          = chunks.map (fun c =>
              match generateEmbedding (buildVocabulary g chunks) c.text with
              | Except.ok v => v
              | Except.error _ => List.replicate 384 0) := by
  intro g chunks
  refine ⟨?_, generateEmbeddingsBatch_eq_map g chunks⟩
  rw [generateEmbeddingsBatch_eq_map, List.length_map]

/-- C6: for every batch and every term occurring in it, `buildVocabulary`
stores `idf = ln(N / (df + 1)) + 1` with `df` the number of chunks
containing the term, `df ≤ N`, and this idf is strictly positive; on the
two-chunk corpus "cat dog" / "dog bird": idf(cat) = 1,
idf(dog) = ln(2/3) + 1, idf(bird) = 1. -/
theorem c6_vocabulary_idf :
    (∀ (g : EmbeddingGenerator) (chunks : List Chunk) (w : String),
        (∃ c ∈ chunks, w ∈ tokenize c.text) →
        lookupKV (buildVocabulary g chunks).idfScores w
          = some (Real.log ((chunks.length : ℝ) / ((dfCount chunks w : ℝ) + 1)) + 1)
        ∧ dfCount chunks w ≤ chunks.length
        ∧ 0 < Real.log ((chunks.length : ℝ) / ((dfCount chunks w : ℝ) + 1)) + 1)
    ∧ lookupKV (buildVocabulary freshGen [catDogChunk, dogBirdChunk]).idfScores ("cat") = some 1
    ∧ lookupKV (buildVocabulary freshGen [catDogChunk, dogBirdChunk]).idfScores ("dog")
        = some (Real.log ((2 : ℝ) / 3) + 1)
    ∧ lookupKV (buildVocabulary freshGen [catDogChunk, dogBirdChunk]).idfScores ("bird")
        = some 1 := by
  refine ⟨vocab_idf_general, ?_, ?_, ?_⟩
  · have h := (vocab_idf_general freshGen [catDogChunk, dogBirdChunk] ("cat")
      ⟨catDogChunk, by simp, by decide⟩).1
    rw [show dfCount [catDogChunk, dogBirdChunk] ("cat") = 1 from by decide] at h
    rw [h]
    norm_num [Real.log_one]
  · have h := (vocab_idf_general freshGen [catDogChunk, dogBirdChunk] ("dog")
      ⟨catDogChunk, by simp, by decide⟩).1
    rw [show dfCount [catDogChunk, dogBirdChunk] ("dog") = 2 from by decide] at h
    rw [h]
    norm_num
  · have h := (vocab_idf_general freshGen [catDogChunk, dogBirdChunk] ("bird")
      ⟨dogBirdChunk, by simp, by decide⟩).1
    rw [show dfCount [catDogChunk, dogBirdChunk] ("bird") = 1 from by decide] at h
    rw [h]
    norm_num [Real.log_one]

/-- C6 witness: the general part applied to the one-chunk corpus
["cat dog"] and its term "dog": the stored idf is positive. -/
theorem c6_vocabulary_idf_witness :
    0 < Real.log ((([catDogChunk] : List Chunk).length : ℝ)
        / ((dfCount [catDogChunk] ("dog") : ℝ) + 1)) + 1 :=
  (c6_vocabulary_idf.1 freshGen [catDogChunk] ("dog")
    ⟨catDogChunk, by simp, by decide⟩).2.2

/-- C7: every candidate returned by `hybridSearch` has
`combinedScore = similarity + keywordScore` with
`keywordScore = Σ over query keywords of (match count in candidate text) × 0.1`,
hence `combinedScore ≥ similarity`. -/
theorem c7_hybrid_combined_score :
    ∀ (g : EmbeddingGenerator) (queryText : String) (chunks : List Chunk) (topK : ℕ)
      (results : List HybridResult),
      hybridSearch g queryText chunks topK = Except.ok results →
      ∀ r ∈ results,
        r.combinedScore = r.similarity + r.keywordScore
        ∧ r.keywordScore = ((keywordsOf queryText).map
            (fun kw => ((matchCount kw.toList (jsToLower r.chunk.text) : ℕ) : ℝ) * 0.1)).sum
        ∧ r.similarity ≤ r.combinedScore := by
  intro g q chunks topK results hok r hr
  rw [hybridSearch] at hok
  cases hres : searchSimilarChunks g q chunks (topK * 2) with
  | error e =>
    rw [hres] at hok
    cases hok
  | ok rs =>
    rw [hres] at hok
    have hinj : hybridRank q rs topK = results := by
      have : Except.map (fun rs => hybridRank q rs topK) (Except.ok rs)
          = (Except.ok (hybridRank q rs topK) : Except String (List HybridResult)) := rfl
      rw [this] at hok
      exact Except.ok.inj hok
    rw [← hinj] at hr
    exact hybridRank_props q rs topK r hr

/-- C7 witness: a full `hybridSearch` run (initialized generator, empty
vocabulary, query "cat", one stored chunk whose embedding is the encoded
query) returns `resCatW`, whose combined score is its similarity plus its
keyword score. -/
theorem c7_hybrid_combined_score_witness :
    resCatW.combinedScore = resCatW.similarity + resCatW.keywordScore
      ∧ resCatW.similarity ≤ resCatW.combinedScore :=
  have h := c7_hybrid_combined_score freshGen ("cat") [chunkCatW] 5 [resCatW]
    hybridSearch_catW resCatW (List.mem_singleton_self _)
  ⟨h.1, h.2.2⟩

/-- C8: `cosineSimilarity` is symmetric, and `cosineSimilarity v v = 1`
(exactly, over ℝ) for every vector with a non-zero entry. -/
theorem c8_similarity_symmetric_self :
    (∀ a b : List ℝ, cosineSimilarity a b = cosineSimilarity b a)
    ∧ (∀ v : List ℝ, (∃ x ∈ v, x ≠ 0) → cosineSimilarity v v = 1) :=
  ⟨cosineSimilarity_comm, fun _ h => cosineSimilarity_self h⟩

/-- C8 witness: the non-zero vector [1] has self-similarity 1. -/
theorem c8_similarity_witness : cosineSimilarity [(1 : ℝ)] [(1 : ℝ)] = 1 :=
  c8_similarity_symmetric_self.2 [(1 : ℝ)] ⟨1, List.mem_singleton_self _, one_ne_zero⟩

/-- C9: calling `generateEmbeddingsBatch` on a non-initialized generator
does not raise: every per-item `generateEmbedding` call fails with the
not-initialized error, each failure is caught, and the batch returns one
zero vector of dimension 384 per input chunk. -/
theorem c9_batch_not_inited_zero :
    ∀ (g : EmbeddingGenerator) (chunks : List Chunk), g.isInit = false →
      generateEmbeddingsBatch g chunks
        = List.replicate chunks.length (List.replicate 384 0)
      ∧ ∀ c ∈ chunks, generateEmbedding (buildVocabulary g chunks) c.text
          = Except.error ("Embedding system not initialized") := by
  intro g chunks h
  have herr : ∀ text, generateEmbedding (buildVocabulary g chunks) text
      = Except.error ("Embedding system not initialized") :=
    fun text => generateEmbedding_error (by rw [buildVocabulary_isInit]; exact h) text
  constructor
  · rw [generateEmbeddingsBatch_eq_map]
    have hf : (fun c : Chunk =>
        match generateEmbedding (buildVocabulary g chunks) c.text with
        | Except.ok v => v
        | Except.error _ => List.replicate 384 (0 : ℝ))
        = fun _ : Chunk => List.replicate 384 (0 : ℝ) := by
      funext c
      rw [herr]
    rw [hf]
    rw [show (fun _ : Chunk => List.replicate 384 (0 : ℝ))
        = Function.const Chunk (List.replicate 384 (0 : ℝ)) from rfl]
    rw [List.map_const]
  · intro c _
    exact herr c.text

/-- C9 witness: a concrete non-initialized batch over one chunk returns one
zero vector. -/
theorem c9_batch_not_inited_witness :
    generateEmbeddingsBatch ⟨false, []⟩ [Chunk.mk ("hi there") []]
      = List.replicate ([Chunk.mk ("hi there") []] : List Chunk).length
          (List.replicate 384 0) :=
  (c9_batch_not_inited_zero ⟨false, []⟩ [Chunk.mk ("hi there") []] rfl).1

/-- C10 (amended): `hybridSearch`'s keywords are the lowercased
whitespace-delimited tokens of length > 2 with punctuation retained (not the
encoder's tokenization), and a keyword's occurrence count is the number of
NON-OVERLAPPING left-to-right matches in the lowercased candidate text — so
occurrences inside longer words are counted, but overlapping occurrences are
counted once, not at every starting position. -/
theorem c10_hybrid_keywords_amended :
    (∀ (q : String) (rs : List SearchResult) (k : ℕ), ∀ r ∈ hybridRank q rs k,
        r.keywordScore = ((keywordsOf q).map
          (fun kw => ((matchCount kw.toList (jsToLower r.chunk.text) : ℕ) : ℝ) * 0.1)).sum)
    ∧ keywordsOf ("U.s market! go") = [("u.s"), ("market!")]
    ∧ tokenize ("U.s market! go") = [("market")]
    ∧ matchCount (("cat").toList) (jsToLower ("concatenate")) = 1 :=
  ⟨fun q rs k r hr => (hybridRank_props q rs k r hr).2.1,
    by decide, by decide, by decide⟩

/-- C10 witness: the keyword-score formula applied to a concrete
`hybridRank` result. -/
theorem c10_hybrid_keywords_witness :
    resCatW.keywordScore = ((keywordsOf ("cat")).map
      (fun kw => ((matchCount kw.toList (jsToLower resCatW.chunk.text) : ℕ) : ℝ) * 0.1)).sum :=
  c10_hybrid_keywords_amended.1 ("cat") [SearchResult.mk chunkCatW 1] 5 resCatW
    (by rw [hybridRank_catW]; exact List.mem_singleton_self _)

/-- C10 counterexample: for query "aaa" and candidate text "aaaa" the code's
keyword score is 0.1 (one non-overlapping match), not 0.2 as the claim's
count of substring occurrences (2, at positions 0 and 1) would give. -/
theorem c10_hybrid_keywords_counterexample :
    (hybridRank ("aaa") [resAaaa] 5).map HybridResult.keywordScore
      ≠ [((specSubstringCount (("aaa").toList) (jsToLower ("aaaa")) : ℕ) : ℝ) * 0.1] := by
  rw [hybridRank_aaaa]
  rw [show specSubstringCount (("aaa").toList) (jsToLower ("aaaa")) = 2 from by decide]
  simp only [List.map_cons, List.map_nil, ne_eq, List.cons.injEq, and_true]
  rw [show resAaaaRanked.keywordScore = kwScoreAaaa from rfl]
  rw [show kwScoreAaaa
      = 0 + ((matchCount (("aaa").toList) (jsToLower ("aaaa")) : ℕ) : ℝ) * 0.1 from rfl]
  rw [show matchCount (("aaa").toList) (jsToLower ("aaaa")) = 1 from by decide]
  norm_num

end
